import Mathlib

/-!
A formal model of the brotli reference decoder `yeast.c` and the `.br` stream
merger `braid.c` (madler/brotli), as a shallow embedding in Lean 4.

Conventions of the embedding:
* C byte buffers become `List Nat` (each element a byte value 0..255).
* The `throw()` error exits become the `Except Err` monad.
* `size_t` / `unsigned` arithmetic is modelled on `Nat` (with an explicit
  `% 2^32` or `% 2^64` exactly where the C code can wrap).
* Imperative loops become structural recursions; loops whose C termination
  argument is indirect carry an explicit fuel argument that is always chosen
  large enough to never run out on the paths the C code can take.
-/

/-- Error codes of the decoder, mirroring the `throw(n, ...)` codes used in
yeast.c (1 = out of memory, 2 = premature end of input, 3 = invalid stream,
4 = compare mismatch).  `assertFail` marks control paths that are unreachable
in the C code and guarded there by `assert`; `fuelOut` marks exhaustion of a
model-side fuel counter. -/
inductive Err where
  | oom
  | endOfInput
  | malformed
  | mismatch
  | assertFail
  | fuelOut
deriving DecidableEq

deriving instance DecidableEq for Except

/-- Numeric status code of an error, as returned by `yeast()`. -/
def errCode : Err → Nat
  | .oom => 1
  | .endOfInput => 2
  | .malformed => 3
  | .mismatch => 4
  | .assertFail => 98
  | .fuelOut => 99

/-- Decoding table for one canonical code (`prefix_t` in yeast.c):
`count` has 16 entries (`count[len]` = number of symbols coded with `len`
bits, `MAXBITS = 15`), `symbol` lists the coded symbols ordered by code
length and, within one length, by symbol value. -/
structure PfxCode where
  count : List Nat
  symbol : List Nat
deriving DecidableEq

/-- Brotli decoding state (`state_t` in yeast.c).  `hav` models `s->have`
(the number of bytes to compare against in compare mode, 0 otherwise) and
`dnull` models `s->dest == NULL`.  `npost` models the `postfix` field. -/
structure State where
  next : List Nat
  bits : Nat
  left : Nat
  wbits : Nat
  wsize : Nat
  dest : List Nat
  got : Nat
  hav : Nat
  dnull : Bool
  lit_num : Nat
  lit_last : Nat
  lit_type : Nat
  lit_left : Nat
  iac_num : Nat
  iac_last : Nat
  iac_type : Nat
  iac_left : Nat
  dist_num : Nat
  dist_last : Nat
  dist_type : Nat
  dist_left : Nat
  ring : List Nat
  ring_ptr : Nat
  npost : Nat
  direct : Nat
  lit_codes : Nat
  dist_codes : Nat
  lit_code : List PfxCode
  iac_code : List PfxCode
  dist_code : List PfxCode
  mode : List Nat
  lit_map : List Nat
  dist_map : List Nat
  lit_types : PfxCode
  lit_count : PfxCode
  iac_types : PfxCode
  iac_count : PfxCode
  dist_types : PfxCode
  dist_count : PfxCode
deriving DecidableEq

/-- Number of input bits still available to the bit reader. -/
def availBits (s : State) : Nat := s.left + 8 * s.next.length

/-- The refill loop of `bits()` in yeast.c: while fewer than `need` bits are
buffered, append the next input byte at the top of the accumulator `reg`.
Returns the accumulator, the buffered-bit count and the remaining input. -/
def bitsLoop (need reg left : Nat) : List Nat → Except Err (Nat × Nat × List Nat)
  | [] => if left < need then .error .endOfInput else .ok (reg, left, [])
  | b :: rest =>
    if left < need then bitsLoop need (reg ||| (b <<< left)) (left + 8) rest
    else .ok (reg, left, b :: rest)

/-- `bits(s, need)` of yeast.c: return the next `need` bits of the stream
(least significant bit first), leaving 0..7 bits buffered. -/
def bits (s : State) (need : Nat) : Except Err (Nat × State) :=
  match bitsLoop need s.bits s.left s.next with
  | .error e => .error e
  | .ok (reg, left, next) =>
    .ok (reg &&& ((1 <<< need) - 1),
         { s with bits := reg >>> need, left := left - need, next := next })

/-! ### braid.c: parity helper and variable-length integers -/

/-- Number of set bits among the low `fuel` bits of `n`. -/
def popcountAux : Nat → Nat → Nat
  | 0, _ => 0
  | fuel + 1, n => n % 2 + popcountAux fuel (n / 2)

/-- Number of set bits of `n` (adequate for all values below `2^64`). -/
def popcount (n : Nat) : Nat := popcountAux 64 n

/-- `parity()` of braid.c: the parity of the low 8 bits of `n`, returned in
bit 7 (so either 0 or 0x80). -/
def parity (n : Nat) : Nat :=
  (0x34cb00 >>> ((n ^^^ (n >>> 4)) &&& 0xf)) &&& 0x80

/-- The loop of `bvar()` in braid.c after the first byte, with an explicit
structural fuel: emit 7-bit groups with the high bit clear while more than
0x7f remains, then the final byte with the high bit set.  The fuel is kept
at least as large as the remaining value, so it never decides the result. -/
def bvarRestAux : Nat → Nat → List Nat
  | 0, n => [0x80 ||| n]
  | f + 1, n => if n > 0x7f then (n &&& 0x7f) :: bvarRestAux f (n / 128) else [0x80 ||| n]

/-- The output of the `while ((num >>= 7) > 0x7f)` loop of `bvar()` plus the
final byte, for the already-shifted value `n`. -/
def bvarRest (n : Nat) : List Nat := bvarRestAux n n

/-- `bvar()` of braid.c: write `num` as a bidirectional variable-length
integer.  The first and last bytes carry the high bit. -/
def bvar (num : Nat) : List Nat :=
  (0x80 ||| (num &&& 0x7f)) :: bvarRest (num >>> 7)

/-- The accumulation loop of `getbvar()`: keep adding 7-bit groups (shifted
up by 7 more bits each time) until a byte with the high bit set arrives. -/
def getbvarAux (val shift : Nat) : List Nat → Except Err Nat
  | [] => .error .endOfInput
  | ch :: rest =>
    let shift' := shift + 7
    let val' := val ||| ((ch &&& 0x7f) <<< shift')
    if ch &&& 0x80 = 0 then getbvarAux val' shift' rest else .ok val'

/-- `getbvar()` of braid.c: read a bidirectional variable-length integer in
the forward direction.  The first byte must have its high bit set. -/
def getbvar (bs : List Nat) : Except Err Nat :=
  match bs with
  | [] => .error .endOfInput
  | ch :: rest =>
    if ch &&& 0x80 = 0 then .error .malformed
    else getbvarAux (ch &&& 0x7f) 0 rest

/-- The accumulation loop of `getrbvar()`: bytes arrive from the back of the
stored sequence; shift the value up and add each 7-bit group, stopping after
consuming a byte with the high bit set. -/
def getrbvarAux (val : Nat) : List Nat → Except Err Nat
  | [] => .error .endOfInput
  | ch :: rest =>
    let val' := (val <<< 7) ||| (ch &&& 0x7f)
    if ch &&& 0x80 = 0 then getrbvarAux val' rest else .ok val'

/-- The start of `getrbvar()` on the reversed byte sequence: the byte read
first (the last of the stored bytes) must have its high bit set and seeds
the value with its low 7 bits. -/
def getrbvarFrom : List Nat → Except Err Nat
  | [] => .error .endOfInput
  | ch :: rest =>
    if ch &&& 0x80 = 0 then .error .malformed
    else getrbvarAux (ch &&& 0x7f) rest

/-- `getrbvar()` of braid.c: read a bidirectional variable-length integer
backwards, starting from the last byte of `bs`. -/
def getrbvar (bs : List Nat) : Except Err Nat := getrbvarFrom bs.reverse

/-! ### Prefix code decoding and construction (yeast.c) -/

/-- The loop of `decode()` in yeast.c.  `fuel` is `MAXBITS - len`; the C loop
condition `++len <= MAXBITS` fails exactly when `fuel` is 0, at which point
the C code would trip `assert(len <= MAXBITS)`. -/
def decodeLoop (p : PfxCode) : Nat → Nat → Nat → Nat → Nat → State → Except Err (Nat × State)
  | fuel, len, first, index, code, s =>
    let cnt := p.count.getD len 0
    if code < first + cnt then
      .ok (p.symbol.getD (index + code - first) 0, s)
    else
      match fuel with
      | 0 => .error .assertFail
      | f + 1 =>
        match bits s 1 with
        | .error e => .error e
        | .ok (b, s') =>
          decodeLoop p f (len + 1) ((first + cnt) <<< 1) (index + cnt) ((code <<< 1) ||| b) s'

/-- `decode(s, p)` of yeast.c: decode one symbol of the canonical code `p`
from the stream, pulling one bit at a time. -/
def decode (s : State) (p : PfxCode) : Except Err (Nat × State) :=
  decodeLoop p 15 0 0 0 0 s

/-- `construct()` of yeast.c, rendered functionally: from the code lengths
`lens` (index = symbol, entry 0 = not coded) build the per-length counts
(`count[0]` stays 0) and the symbol list sorted by length and, within one
length, by symbol value. -/
def construct (lens : List Nat) : PfxCode :=
  { count := (List.range 16).map fun len =>
      if len = 0 then 0 else (lens.filter (fun l => l = len)).length,
    symbol := ((List.range 16).map fun len =>
      if len = 0 then [] else
        (List.range lens.length).filter (fun sym => lens.getD sym 0 = len)).flatten }

/-- The `ORDER` macro of yeast.c on a list: swap entries `i` and `j` if they
are out of order. -/
def orderSwap (l : List Nat) (i j : Nat) : List Nat :=
  if l.getD i 0 > l.getD j 0 then (l.set i (l.getD j 0)).set j (l.getD i 0) else l

/-- `simple()` of yeast.c: build the decoding table for a simple code
descriptor of the given `type` (1..5, see the C comment), sorting symbols
within each equal code length.  `type = 0` cannot occur (asserted in C). -/
def simple (syms : List Nat) (type : Nat) : PfxCode :=
  let symbol := syms.take (if type > 4 then 4 else type)
  match type with
  | 1 => { count := [1, 0, 0, 0, 0, 0, 0, 0, 0, 0, 0, 0, 0, 0, 0, 0], symbol := symbol }
  | 2 => { count := [0, 2, 0, 0, 0, 0, 0, 0, 0, 0, 0, 0, 0, 0, 0, 0],
           symbol := orderSwap symbol 0 1 }
  | 3 => { count := [0, 1, 2, 0, 0, 0, 0, 0, 0, 0, 0, 0, 0, 0, 0, 0],
           symbol := orderSwap symbol 1 2 }
  | 4 => { count := [0, 0, 4, 0, 0, 0, 0, 0, 0, 0, 0, 0, 0, 0, 0, 0],
           symbol := orderSwap (orderSwap (orderSwap (orderSwap (orderSwap symbol 0 1) 2 3) 0 2) 1 3) 1 2 }
  | _ + 5 => { count := [0, 1, 1, 2, 0, 0, 0, 0, 0, 0, 0, 0, 0, 0, 0, 0],
               symbol := orderSwap symbol 2 3 }
  | 0 => { count := List.replicate 16 0, symbol := symbol }

/-- The `abits` computation in the simple branch of yeast.c: the number of
bits needed to represent `num - 1` (for `num ≥ 2`), computed by doubling. -/
def abitsLoop (num : Nat) : Nat → Nat → Nat → Nat
  | 0, _, abits => abits
  | f + 1, n, abits => if n < num then abitsLoop num f (n <<< 1) (abits + 1) else abits

/-- Alphabet bit width used by the simple descriptor reader. -/
def abitsCalc (num : Nat) : Nat := abitsLoop num 16 2 1

/-- The symbol-reading loop of the simple branch: read `k` symbols of
`abits` bits each, rejecting any symbol `≥ num`. -/
def readSyms (abits num : Nat) : Nat → State → Except Err (List Nat × State)
  | 0, s => .ok ([], s)
  | k + 1, s =>
    match bits s abits with
    | .error e => .error e
    | .ok (sym, s') =>
      if sym ≥ num then .error .malformed
      else
        match readSyms abits num k s' with
        | .error e => .error e
        | .ok (rest, s'') => .ok (sym :: rest, s'')

/-- Order in which the code-length-code lengths are stored (`order[]`). -/
def clOrder : List Nat := [1, 2, 3, 4, 0, 5, 17, 6, 16, 7, 8, 9, 10, 11, 12, 13, 14, 15]

/-- The fixed code used to decode the 18 code-length-code lengths
(`prefix_t code = {{0, 0, 3, 1, 2}, {0, 3, 4, 2, 1, 5}}` in yeast.c; the
remaining counts are zero-initialized). -/
def clclCode : PfxCode :=
  { count := [0, 0, 3, 1, 2, 0, 0, 0, 0, 0, 0, 0, 0, 0, 0, 0],
    symbol := [0, 3, 4, 2, 1, 5] }

/-- Zero-fill `fuel` entries of `lens` at positions `clOrder[nsym]`,
`clOrder[nsym+1]`, ... (the `lens[order[nsym++]] = 0` loops in yeast.c). -/
def clFill : Nat → Nat → List Nat → List Nat
  | _, 0, lens => lens
  | nsym, f + 1, lens => clFill (nsym + 1) f (lens.set (clOrder.getD nsym 0) 0)

/-- The first reading loop of the complex branch of `prefix()` in yeast.c:
decode code-length-code lengths with the fixed code `clclCode`, tracking
`left` (the remaining code space out of 32), `rep` (the number of non-zero
lengths seen) and `last` (the symbol of the last non-zero length), stopping
early as soon as `left ≤ 0`.  `fuel` is `18 - nsym`. -/
def clclLoop : Nat → Nat → List Nat → Int → Nat → Nat → State →
    Except Err (List Nat × Int × Nat × Nat × Nat × State)
  | 0, nsym, lens, left, rep, last, s => .ok (lens, left, rep, last, nsym, s)
  | f + 1, nsym, lens, left, rep, last, s =>
    match decode s clclCode with
    | .error e => .error e
    | .ok (len, s') =>
      let n := clOrder.getD nsym 0
      let lens' := lens.set n len
      if len ≠ 0 then
        let left' := left - ((32 >>> len : Nat) : Int)
        if left' ≤ 0 then .ok (lens', left', rep + 1, n, nsym + 1, s')
        else clclLoop f (nsym + 1) lens' left' (rep + 1) n s'
      else clclLoop f (nsym + 1) lens' left rep last s'

/-- Reading of the code-length code in the complex branch of `prefix()`
(yeast.c lines 426-458): read the 18 lengths with the fixed code, validate
completeness (oversubscribed or incomplete codes are errors, except that a
single non-zero length yields a one-symbol zero-bit code, overwriting entry
0 of the fixed table as the C code does), otherwise construct the code. -/
def clclRead (s : State) (hskip : Nat) : Except Err (PfxCode × State) :=
  match clclLoop (18 - hskip) hskip (clFill 0 hskip (List.replicate 18 0)) 32 0 0 s with
  | .error e => .error e
  | .ok (lens, left, rep, last, nsym, s') =>
    if left < 0 then .error .malformed
    else if left ≠ 0 ∧ rep ≠ 1 then .error .malformed
    else
      if left ≠ 0 then
        .ok ({ count := clclCode.count.set 0 1, symbol := clclCode.symbol.set 0 last }, s')
      else .ok (construct (clFill nsym (18 - nsym) lens), s')

/-- Reference rendering of the code-length-code reading loop, following the
specification's description: decode each length with the fixed code, record
it at the permuted position, keep the running sum of `2^(5-len)` over the
non-zero lengths together with their number and the last symbol that got a
non-zero length, and stop early once the running sum reaches 32. -/
def clclSpecLoop : Nat → Nat → List Nat → Nat → Nat → Nat → State →
    Except Err (List Nat × Nat × Nat × Nat × Nat × State)
  | 0, nsym, lens, sum, nz, lastSym, s => .ok (lens, sum, nz, lastSym, nsym, s)
  | f + 1, nsym, lens, sum, nz, lastSym, s =>
    match decode s clclCode with
    | .error e => .error e
    | .ok (len, s') =>
      let n := clOrder.getD nsym 0
      let lens' := lens.set n len
      if len ≠ 0 then
        let sum' := sum + 2 ^ (5 - len)
        if 32 ≤ sum' then .ok (lens', sum', nz + 1, n, nsym + 1, s')
        else clclSpecLoop f (nsym + 1) lens' sum' (nz + 1) n s'
      else clclSpecLoop f (nsym + 1) lens' sum nz lastSym s'

/-- The code-lengths reading loop of the complex branch (yeast.c lines
461-513): read symbols with the code-length code; 0..15 are literal lengths,
16 repeats the last non-zero length (8 if none) with chained 2-bit extras,
17 inserts runs of zeros with chained 3-bit extras.  The loop runs while
`left > 0`; a repeat that overshoots (`left < 0`) stops the loop and the
caller reports the oversubscription. -/
def lensLoop (num : Nat) (code : PfxCode) :
    Nat → Nat → List Nat → Int → Nat → Nat → Nat → State →
    Except Err (List Nat × Nat × Int × State)
  | 0, _, _, _, _, _, _, _ => .error .fuelOut
  | f + 1, nsym, lens, left, last, rep, zeros, s =>
    match decode s code with
    | .error e => .error e
    | .ok (len, s') =>
      if len < 16 then
        if nsym = num then .error .malformed
        else
          let lens' := lens ++ [len]
          let left' := if len ≠ 0 then left - ((32768 >>> len : Nat) : Int) else left
          let last' := if len ≠ 0 then len else last
          if left' > 0 then lensLoop num code f (nsym + 1) lens' left' last' 0 0 s'
          else .ok (lens', nsym + 1, left', s')
      else if len = 16 then
        let rep' := (if rep ≠ 0 then (rep - 2) <<< 2 else 0) + 3
        match bits s' 2 with
        | .error e => .error e
        | .ok (x, s'') =>
          let rep'' := rep' + x
          let n := rep'' - rep
          if nsym + n > num then .error .malformed
          else
            let left' := left - (n : Int) * ((32768 >>> last : Nat) : Int)
            if left' < 0 then .ok (lens, nsym, left', s'')
            else
              let lens' := lens ++ List.replicate n last
              if left' > 0 then lensLoop num code f (nsym + n) lens' left' last rep'' 0 s''
              else .ok (lens', nsym + n, left', s'')
      else
        let zeros' := (if zeros ≠ 0 then (zeros - 2) <<< 3 else 0) + 3
        match bits s' 3 with
        | .error e => .error e
        | .ok (x, s'') =>
          let zeros'' := zeros' + x
          let n := zeros'' - zeros
          if nsym + n > num then .error .malformed
          else
            let lens' := lens ++ List.replicate n 0
            if left > 0 then lensLoop num code f (nsym + n) lens' left last 0 zeros'' s''
            else .ok (lens', nsym + n, left, s'')

/-- `prefix()` of yeast.c (reading one prefix-code descriptor, simple or
complex, for an alphabet of `num` symbols); named `pfxRead` here. -/
def pfxRead (s : State) (num : Nat) : Except Err (PfxCode × State) :=
  match bits s 2 with
  | .error e => .error e
  | .ok (hskip, s1) =>
    if hskip = 1 then
      let abits := abitsCalc num
      match bits s1 2 with
      | .error e => .error e
      | .ok (nsym1, s2) =>
        match readSyms abits num (nsym1 + 1) s2 with
        | .error e => .error e
        | .ok (syms, s3) =>
          if nsym1 + 1 = 4 then
            match bits s3 1 with
            | .error e => .error e
            | .ok (b, s4) => .ok (simple syms (4 + b), s4)
          else .ok (simple syms (nsym1 + 1), s3)
    else
      match clclRead s1 hskip with
      | .error e => .error e
      | .ok (code, s2) =>
        match lensLoop num code (num + 1) 0 [] 32768 8 0 0 s2 with
        | .error e => .error e
        | .ok (lens, _, left, s3) =>
          if left < 0 then .error .malformed
          else .ok (construct lens, s3)

/-! ### Block lengths, block types, context map (yeast.c) -/

/-- Base values of the 26 block length codes. -/
def blBase : List Nat :=
  [1, 5, 9, 13, 17, 25, 33, 41, 49, 65, 81, 97, 113, 145, 177, 209, 241,
   305, 369, 497, 753, 1265, 2289, 4337, 8433, 16625]

/-- Extra bits of the 26 block length codes. -/
def blExtra : List Nat :=
  [2, 2, 2, 2, 3, 3, 3, 3, 4, 4, 4, 4, 5, 5, 5, 5, 6, 6, 7, 8, 9, 10, 11,
   12, 13, 24]

/-- `block_length()` of yeast.c. -/
def block_length (s : State) (p : PfxCode) : Except Err (Nat × State) :=
  match decode s p with
  | .error e => .error e
  | .ok (sym, s') =>
    match bits s' (blExtra.getD sym 0) with
    | .error e => .error e
    | .ok (x, s'') => .ok (blBase.getD sym 0 + x, s'')

/-- `block_types()` of yeast.c: decode a number of block types in 1..256. -/
def block_types (s : State) : Except Err (Nat × State) := do
  let (b, s) ← bits s 1
  if b = 0 then return (1, s)
  let (code, s) ← bits s 3
  let (x, s) ← bits s code
  return (1 + (1 <<< code) + x, s)

/-- The map-reading loop of `context_map()` in yeast.c: symbol 0 is a map
entry 0, symbols `1..rlemax` insert `2^sym + extra` zeros, larger symbols
are map entries `sym - rlemax`.  Runs until `len` entries were produced. -/
def cmapLoop (code : PfxCode) (rlemax len : Nat) :
    Nat → Nat → List Nat → State → Except Err (List Nat × State)
  | 0, _, _, _ => .error .fuelOut
  | f + 1, n, map, s =>
    match decode s code with
    | .error e => .error e
    | .ok (sym, s') =>
      if sym = 0 then
        let map' := map ++ [0]
        if n + 1 < len then cmapLoop code rlemax len f (n + 1) map' s'
        else .ok (map', s')
      else if sym ≤ rlemax then
        match bits s' sym with
        | .error e => .error e
        | .ok (x, s'') =>
          let zeros := (1 <<< sym) + x
          if n + zeros > len then .error .malformed
          else
            let map' := map ++ List.replicate zeros 0
            if n + zeros < len then cmapLoop code rlemax len f (n + zeros) map' s''
            else .ok (map', s'')
      else
        let map' := map ++ [sym - rlemax]
        if n + 1 < len then cmapLoop code rlemax len f (n + 1) map' s'
        else .ok (map', s')

/-- The inner shift of the inverse move-to-front loop in `context_map()`:
`do { table[sym] = table[sym-1]; } while (--sym);`. -/
def mtfShift : List Nat → Nat → List Nat
  | table, 0 => table
  | table, k + 1 => mtfShift (table.set (k + 1) (table.getD k 0)) k

/-- The inverse move-to-front loop of `context_map()` in yeast.c: replace
each entry by the table value it indexes and move that value to the front of
the table. -/
def invMTFLoop : List Nat → List Nat → List Nat → List Nat
  | [], _, acc => acc
  | v :: rest, table, acc =>
    let out := table.getD v 0
    if v = 0 then invMTFLoop rest table (acc ++ [out])
    else invMTFLoop rest ((mtfShift table v).set 0 out) (acc ++ [out])

/-- The inverse move-to-front transform applied by `context_map()` when the
trailing bit is set, over the alphabet `0..trees-1`. -/
def invMTF (trees : Nat) (map : List Nat) : List Nat :=
  invMTFLoop map (List.range trees) []

/-- `context_map()` of yeast.c: read a context map of `len` entries in
`0..trees-1`, expanding runs of zeros, then optionally apply the inverse
move-to-front transform. -/
def context_map (s : State) (len trees : Nat) : Except Err (List Nat × State) := do
  let (b, s) ← bits s 1
  let (rlemax, s) ←
    if b ≠ 0 then do
      let (r, s) ← bits s 4
      pure (1 + r, s)
    else pure (0, s)
  if (1 <<< rlemax) > len then .error .malformed
  else do
    let (code, s) ← pfxRead s (rlemax + trees)
    let (map, s) ← cmapLoop code rlemax len (len + 1) 0 [] s
    let (mtf, s) ← bits s 1
    if mtf ≠ 0 then .ok (invMTF trees map, s) else .ok (map, s)

/-! ### Insert, copy, context id, distance (yeast.c) -/

/-- Map from insert-and-copy symbol high bits to insert symbol base. -/
def ilMap : List Nat := [0, 0, 0, 0, 8, 8, 0, 16, 8, 16, 16]

/-- Insert length bases. -/
def ilBase : List Nat :=
  [0, 1, 2, 3, 4, 5, 6, 8, 10, 14, 18, 26, 34, 50, 66, 98, 130, 194, 322,
   578, 1090, 2114, 6210, 22594]

/-- Insert length extra bits. -/
def ilExtra : List Nat :=
  [0, 0, 0, 0, 0, 0, 1, 1, 2, 2, 3, 3, 4, 4, 5, 5, 6, 7, 8, 9, 10, 12, 14, 24]

/-- `insert_length()` of yeast.c. -/
def insert_length (s : State) (sym : Nat) : Except Err (Nat × State) :=
  let k := ilMap.getD (sym >>> 6) 0 + ((sym >>> 3) &&& 7)
  match bits s (ilExtra.getD k 0) with
  | .error e => .error e
  | .ok (x, s') => .ok (ilBase.getD k 0 + x, s')

/-- Map from insert-and-copy symbol high bits to copy symbol base. -/
def clMap : List Nat := [0, 8, 0, 8, 0, 8, 16, 0, 16, 8, 16]

/-- Copy length bases. -/
def clBase : List Nat :=
  [2, 3, 4, 5, 6, 7, 8, 9, 10, 12, 14, 18, 22, 30, 38, 54, 70, 102, 134,
   198, 326, 582, 1094, 2118]

/-- Copy length extra bits. -/
def clExtra : List Nat :=
  [0, 0, 0, 0, 0, 0, 0, 0, 1, 1, 2, 2, 3, 3, 4, 4, 5, 5, 6, 7, 8, 9, 10, 24]

/-- `copy_length()` of yeast.c. -/
def copy_length (s : State) (sym : Nat) : Except Err (Nat × State) :=
  let k := clMap.getD (sym >>> 6) 0 + (sym &&& 7)
  match bits s (clExtra.getD k 0) with
  | .error e => .error e
  | .ok (x, s') => .ok (clBase.getD k 0 + x, s')

/-- First UTF8-mode context lookup table of `context_id()`. -/
def lut0 : List Nat :=
  [0, 0, 0, 0, 0, 0, 0, 0, 0, 4, 4, 0, 0, 4, 0, 0, 0, 0, 0, 0, 0, 0, 0, 0, 0, 0, 0, 0, 0, 0, 0, 0, 8, 12, 16, 12, 12, 20, 12, 16, 24, 28, 12, 12, 32, 12, 36, 12, 44, 44, 44, 44, 44, 44, 44, 44, 44, 44, 32, 32, 24, 40, 28, 12, 12, 48, 52, 52, 52, 48, 52, 52, 52, 48, 52, 52, 52, 52, 52, 48, 52, 52, 52, 52, 52, 48, 52, 52, 52, 52, 52, 24, 12, 28, 12, 12, 12, 56, 60, 60, 60, 56, 60, 60, 60, 56, 60, 60, 60, 60, 60, 56, 60, 60, 60, 60, 60, 56, 60, 60, 60, 60, 60, 24, 12, 28, 12, 0, 0, 1, 0, 1, 0, 1, 0, 1, 0, 1, 0, 1, 0, 1, 0, 1, 0, 1, 0, 1, 0, 1, 0, 1, 0, 1, 0, 1, 0, 1, 0, 1, 0, 1, 0, 1, 0, 1, 0, 1, 0, 1, 0, 1, 0, 1, 0, 1, 0, 1, 0, 1, 0, 1, 0, 1, 0, 1, 0, 1, 0, 1, 0, 1, 2, 3, 2, 3, 2, 3, 2, 3, 2, 3, 2, 3, 2, 3, 2, 3, 2, 3, 2, 3, 2, 3, 2, 3, 2, 3, 2, 3, 2, 3, 2, 3, 2, 3, 2, 3, 2, 3, 2, 3, 2, 3, 2, 3, 2, 3, 2, 3, 2, 3, 2, 3, 2, 3, 2, 3, 2, 3, 2, 3, 2, 3, 2, 3]

/-- Second UTF8-mode context lookup table of `context_id()`. -/
def lut1 : List Nat :=
  [0, 0, 0, 0, 0, 0, 0, 0, 0, 0, 0, 0, 0, 0, 0, 0, 0, 0, 0, 0, 0, 0, 0, 0, 0, 0, 0, 0, 0, 0, 0, 0, 0, 1, 1, 1, 1, 1, 1, 1, 1, 1, 1, 1, 1, 1, 1, 1, 2, 2, 2, 2, 2, 2, 2, 2, 2, 2, 1, 1, 1, 1, 1, 1, 1, 2, 2, 2, 2, 2, 2, 2, 2, 2, 2, 2, 2, 2, 2, 2, 2, 2, 2, 2, 2, 2, 2, 2, 2, 2, 2, 1, 1, 1, 1, 1, 1, 3, 3, 3, 3, 3, 3, 3, 3, 3, 3, 3, 3, 3, 3, 3, 3, 3, 3, 3, 3, 3, 3, 3, 3, 3, 3, 1, 1, 1, 1, 0, 0, 0, 0, 0, 0, 0, 0, 0, 0, 0, 0, 0, 0, 0, 0, 0, 0, 0, 0, 0, 0, 0, 0, 0, 0, 0, 0, 0, 0, 0, 0, 0, 0, 0, 0, 0, 0, 0, 0, 0, 0, 0, 0, 0, 0, 0, 0, 0, 0, 0, 0, 0, 0, 0, 0, 0, 0, 0, 0, 0, 0, 0, 0, 0, 0, 0, 0, 0, 0, 0, 0, 0, 0, 0, 0, 0, 0, 0, 0, 0, 0, 0, 0, 0, 0, 0, 0, 0, 0, 0, 0, 0, 0, 0, 0, 0, 2, 2, 2, 2, 2, 2, 2, 2, 2, 2, 2, 2, 2, 2, 2, 2, 2, 2, 2, 2, 2, 2, 2, 2, 2, 2, 2, 2, 2, 2, 2, 2]

/-- Signed-mode context lookup table of `context_id()`. -/
def lut2 : List Nat :=
  [0, 1, 1, 1, 1, 1, 1, 1, 1, 1, 1, 1, 1, 1, 1, 1, 2, 2, 2, 2, 2, 2, 2, 2, 2, 2, 2, 2, 2, 2, 2, 2, 2, 2, 2, 2, 2, 2, 2, 2, 2, 2, 2, 2, 2, 2, 2, 2, 2, 2, 2, 2, 2, 2, 2, 2, 2, 2, 2, 2, 2, 2, 2, 2, 3, 3, 3, 3, 3, 3, 3, 3, 3, 3, 3, 3, 3, 3, 3, 3, 3, 3, 3, 3, 3, 3, 3, 3, 3, 3, 3, 3, 3, 3, 3, 3, 3, 3, 3, 3, 3, 3, 3, 3, 3, 3, 3, 3, 3, 3, 3, 3, 3, 3, 3, 3, 3, 3, 3, 3, 3, 3, 3, 3, 3, 3, 3, 3, 4, 4, 4, 4, 4, 4, 4, 4, 4, 4, 4, 4, 4, 4, 4, 4, 4, 4, 4, 4, 4, 4, 4, 4, 4, 4, 4, 4, 4, 4, 4, 4, 4, 4, 4, 4, 4, 4, 4, 4, 4, 4, 4, 4, 4, 4, 4, 4, 4, 4, 4, 4, 4, 4, 4, 4, 4, 4, 4, 4, 4, 4, 4, 4, 5, 5, 5, 5, 5, 5, 5, 5, 5, 5, 5, 5, 5, 5, 5, 5, 5, 5, 5, 5, 5, 5, 5, 5, 5, 5, 5, 5, 5, 5, 5, 5, 5, 5, 5, 5, 5, 5, 5, 5, 5, 5, 5, 5, 5, 5, 5, 5, 6, 6, 6, 6, 6, 6, 6, 6, 6, 6, 6, 6, 6, 6, 6, 7]

/-- `context_id()` of yeast.c: the context ID in 0..63 given the previous
two output bytes and the literal context mode.  Modes above 3 cannot occur
(asserted in C); 0 is returned for them. -/
def context_id (p1 p2 mode : Nat) : Nat :=
  match mode with
  | 0 => p1 &&& 0x3f
  | 1 => p1 >>> 2
  | 2 => lut0.getD p1 0 ||| lut1.getD p2 0
  | 3 => (lut2.getD p1 0 <<< 3) ||| lut2.getD p2 0
  | _ + 4 => 0

/-- Ring-buffer back references for distance symbols 0..15. -/
def distBack : List Nat := [0, 1, 2, 3, 0, 0, 0, 0, 0, 0, 1, 1, 1, 1, 1, 1]

/-- Ring-buffer deltas for distance symbols 0..15. -/
def distDelta : List Int := [0, 0, 0, 0, -1, 1, -2, 2, -3, 3, -1, 1, -2, 2, -3, 3]

/-- The conditional ring-buffer update at the end of `distance()` in
yeast.c: advance the ring pointer modulo 4 and store the distance (a
`uint32_t` in C, hence the truncation) only when the symbol is non-zero and
the distance is within `max`. -/
def ringUpdate (s : State) (sym dist max : Nat) : State :=
  if sym ≠ 0 ∧ dist ≤ max then
    { s with ring_ptr := (s.ring_ptr + 1) % 4,
             ring := s.ring.set ((s.ring_ptr + 1) % 4) (dist % 4294967296) }
  else s

/-- `distance()` of yeast.c: compute the distance for distance symbol `sym`.
Symbols below 16 reference the ring buffer (the C sum `ring[...] + delta` is
`uint32_t` arithmetic, hence the wrap modulo `2^32`); the next `direct`
symbols map to `sym - 15`; the rest read `x` extra bits.  The ring buffer is
then updated per `ringUpdate`. -/
def distance (s : State) (sym max : Nat) : Except Err (Nat × State) :=
  if sym < 16 then
    let dist := (((s.ring.getD ((s.ring_ptr + 4 - distBack.getD sym 0) % 4) 0 : Int) +
        distDelta.getD sym 0) % 4294967296).toNat
    .ok (dist, ringUpdate s sym dist max)
  else if sym < 16 + s.direct then
    let dist := sym - 15
    .ok (dist, ringUpdate s sym dist max)
  else
    let n := sym - s.direct - 16
    let x := 1 + (n >>> (s.npost + 1))
    let off := ((2 + ((n >>> s.npost) &&& 1)) <<< x) - 4
    match bits s x with
    | .error e => .error e
    | .ok (e, s') =>
      let dist := ((off + e) <<< s.npost) + (n &&& ((1 <<< s.npost) - 1)) + s.direct + 1
      .ok (dist, ringUpdate s' sym dist max)

/-! ### Static dictionary words (yeast.c `dict_word()`) -/

/-- Offsets of the length-partitioned dictionary sections (`DOFFSET`). -/
def doffset : List Nat :=
  [0, 0, 0, 0, 0, 4096, 9216, 21504, 35840, 44032, 53248, 63488, 74752,
   87040, 93696, 100864, 104704, 106752, 108928, 113536, 115968, 118528,
   119872, 121280, 122016]

/-- Bits of dictionary index per word length (`NDBITS`). -/
def ndbits : List Nat :=
  [0, 0, 0, 0, 10, 10, 11, 11, 10, 10, 10, 10, 10, 9, 9, 8, 7, 7, 8, 7, 7,
   6, 6, 5, 5]

/-- Modelled from the spec: the static dictionary content (`dict.h`, a
generated 122,784-byte data table included by yeast.c) is not part of the
sources here; the spec treats it as opaque constant data that an
implementation embeds verbatim.  Its bytes are abstracted as zeros; no claim
in this development depends on them. -/
def dictData (_i : Nat) : Nat := 0

/-- Modelled from the spec: the 121-entry transform table (`xforms.h`, a
generated data table included by yeast.c) is not part of the sources here;
the spec treats it as opaque constant data (affix strings plus an elementary
operation per entry).  The application of transform `x` to a word is
abstracted as the identity; no claim in this development depends on it. -/
def xformApply (_x : Nat) (word : List Nat) : List Nat := word

/-- `dict_word()` of yeast.c: validate the word length (4..24) and the
transform index (< 121, `NTRANSFORMS`), then produce the transformed
dictionary word for the given length and excess distance `id`. -/
def dict_word (copy id : Nat) : Except Err (List Nat) :=
  if copy > 24 then .error .malformed
  else if copy < 4 then .error .malformed
  else
    let index := id &&& ((1 <<< ndbits.getD copy 0) - 1)
    let xform := id >>> ndbits.getD copy 0
    if xform ≥ 121 then .error .malformed
    else
      let base := doffset.getD copy 0 + index * copy
      .ok (xformApply xform ((List.range copy).map fun i => dictData (base + i)))

/-! ### Meta-block decoding and the top-level driver (yeast.c) -/

/-- An empty decoding table, used as the out-of-range default when indexing
the code arrays (the C code never indexes out of range). -/
def noCode : PfxCode := { count := [], symbol := [] }

/-- Reading of MLEN in the meta-block header (yeast.c lines 1031-1036):
read 16 bits as the low four nibbles of `mlen - 1`; when `nsel` (that is,
`MNIBBLES - 4`) is non-zero, read `4 * nsel` more bits for the remaining
nibbles and reject the stream when `mlen` shifted right by `4 * (nsel + 3)`
bits is zero ("more meta-block length nybbles than needed"). -/
def readMlen (s : State) (nsel : Nat) : Except Err (Nat × State) :=
  match bits s 16 with
  | .error e => .error e
  | .ok (lo, s1) =>
    let mlen := 1 + lo
    if nsel ≠ 0 then
      match bits s1 (nsel <<< 2) with
      | .error e => .error e
      | .ok (hi, s2) =>
        let mlen := mlen + (hi <<< 16)
        if mlen >>> ((nsel + 3) <<< 2) = 0 then .error .malformed
        else .ok (mlen, s2)
    else .ok (mlen, s1)

/-- Write one output byte: in compare mode (`hav ≠ 0`) compare against the
expected buffer instead (`throw(4, "compare mismatch")` on difference). -/
def putByte (s : State) (b : Nat) : Except Err State :=
  if s.hav ≠ 0 then
    if s.dest.getD s.got 0 ≠ b then .error .mismatch
    else .ok { s with got := s.got + 1 }
  else .ok { s with dest := s.dest ++ [b], got := s.got + 1 }

/-- The literal-insertion loop of `metablock()`: for each of the `insert`
literals, switch the literal block type when its counter hits zero, select
the literal code through the context map when there is more than one code,
decode the literal and write it. -/
def litLoop : Nat → State → Except Err State
  | 0, s => .ok s
  | insert + 1, s => do
    let s ←
      (if s.lit_left = 0 then do
        let (t, s) ← decode s s.lit_types
        let nt := if t > 1 then t - 2
                  else if t ≠ 0 then (s.lit_type + 1) % s.lit_num
                  else s.lit_last
        let s := { s with lit_last := s.lit_type, lit_type := nt }
        let (bl, s) ← block_length s s.lit_count
        pure { s with lit_left := bl }
      else pure s)
    let s := { s with lit_left := s.lit_left - 1 }
    let n :=
      if s.lit_codes > 1 then
        let p1 := if s.got ≠ 0 then s.dest.getD (s.got - 1) 0 else 0
        let p2 := if s.got > 1 then s.dest.getD (s.got - 2) 0 else 0
        s.lit_map.getD ((s.lit_type <<< 6) + context_id p1 p2 (s.mode.getD s.lit_type 0)) 0
      else 0
    let (lit, s) ← decode s (s.lit_code.getD n noCode)
    let s ← putByte s lit
    litLoop insert s

/-- The in-window copy loop of `metablock()`: `copy` times, emit the byte
`dist` positions back in the output (overlapped copies re-read bytes written
by this very loop, as in the C `do`-`while`). -/
def copyLoop : Nat → Nat → State → Except Err State
  | 0, _, s => .ok s
  | copy + 1, dist, s => do
    let s ← putByte s (s.dest.getD (s.got - dist) 0)
    copyLoop copy dist s

/-- One iteration body plus loop of the meta-block data section of
`metablock()` (the `do { ... } while (mlen);` loop): read an insert-and-copy
command, insert the literals, then either stop (MLEN reached), reuse the
last distance (symbol < 128) or decode a distance, and copy from the window
or from the static dictionary.  `fuel` bounds the number of commands. -/
def dataLoop (wsize : Nat) : Nat → Nat → State → Except Err State
  | 0, _, _ => .error .fuelOut
  | f + 1, mlen, s => do
    let s ←
      (if s.iac_left = 0 then do
        let (t, s) ← decode s s.iac_types
        let nt := if t > 1 then t - 2
                  else if t ≠ 0 then (s.iac_type + 1) % s.iac_num
                  else s.iac_last
        let s := { s with iac_last := s.iac_type, iac_type := nt }
        let (bl, s) ← block_length s s.iac_count
        pure { s with iac_left := bl }
      else pure s)
    let s := { s with iac_left := s.iac_left - 1 }
    let (iac_sym, s) ← decode s (s.iac_code.getD s.iac_type noCode)
    let (insert, s) ← insert_length s iac_sym
    let (copy, s) ← copy_length s iac_sym
    if insert > mlen then .error .malformed
    else do
      let mlen := mlen - insert
      let s ← litLoop insert s
      if mlen = 0 then .ok s
      else do
        let max := if s.got > wsize then wsize else s.got
        let (dist, s) ←
          (if iac_sym < 128 then pure (s.ring.getD s.ring_ptr 0, s)
          else do
            let s ←
              (if s.dist_left = 0 then do
                let (t, s) ← decode s s.dist_types
                let nt := if t > 1 then t - 2
                          else if t ≠ 0 then (s.dist_type + 1) % s.dist_num
                          else s.dist_last
                let s := { s with dist_last := s.dist_type, dist_type := nt }
                let (bl, s) ← block_length s s.dist_count
                pure { s with dist_left := bl }
              else pure s)
            let s := { s with dist_left := s.dist_left - 1 }
            let n :=
              if s.dist_codes > 1 then
                s.dist_map.getD ((s.dist_type <<< 2) +
                  (if copy > 4 then 3 else copy - 2)) 0
              else 0
            let (dsym, s) ← decode s (s.dist_code.getD n noCode)
            distance s dsym max)
        if dist > max then do
          let word ← dict_word copy (dist - max - 1)
          let copy := word.length
          if copy > mlen then .error .malformed
          else do
            let s ←
              (if s.hav ≠ 0 then
                if (s.dest.drop s.got).take copy ≠ word then .error .mismatch
                else pure { s with got := s.got + copy }
              else pure { s with dest := s.dest ++ word, got := s.got + copy })
            let mlen := mlen - copy
            if mlen ≠ 0 then dataLoop wsize f mlen s else .ok s
        else do
          if copy > mlen then .error .malformed
          else do
            let mlen := mlen - copy
            let s ← copyLoop copy dist s
            if mlen ≠ 0 then dataLoop wsize f mlen s else .ok s

/-- Read the 2-bit context modes for `k` literal types (CMODE). -/
def readModes : Nat → State → Except Err (List Nat × State)
  | 0, s => .ok ([], s)
  | k + 1, s => do
    let (m, s) ← bits s 2
    let (rest, s) ← readModes k s
    .ok (m :: rest, s)

/-- Read `k` consecutive prefix-code descriptors over `num` symbols
(the HTREEL/HTREEI/HTREED reading loops of `metablock()`). -/
def readCodes : Nat → Nat → State → Except Err (List PfxCode × State)
  | 0, _, s => .ok ([], s)
  | k + 1, num, s => do
    let (p, s) ← pfxRead s num
    let (rest, s) ← readCodes k num s
    .ok (p :: rest, s)

/-- `metablock()` of yeast.c: decompress one meta-block, returning the
ISLAST flag.  The header is read field by field exactly as in the C code;
the data section is `dataLoop`. -/
def metablock (s : State) : Except Err (Nat × State) := do
  let (last, s) ← bits s 1                               -- ISLAST
  let (stop, s) ←
    (if last ≠ 0 then do
      let (e, s) ← bits s 1                              -- ISLASTEMPTY
      pure (e, s)
    else pure (0, s))
  if stop ≠ 0 then return (last, s)
  let (n, s) ← bits s 2                                  -- MNIBBLES - 4
  if n = 3 then do
    let (r, s) ← bits s 1
    if r ≠ 0 then .error .malformed                      -- reserved bit
    else do
      let (k, s) ← bits s 2                              -- MSKIPBYTES
      let (mlen, s) ←
        (if k ≠ 0 then do
          let (v, s) ← bits s (k <<< 3)
          pure (v + 1, s)
        else pure (0, s))
      if k > 1 ∧ mlen >>> ((k - 1) <<< 3) = 0 then .error .malformed
      else if s.left ≠ 0 ∧ s.bits ≠ 0 then .error .malformed
      else do
        let s := { s with bits := 0, left := 0 }
        if mlen ≠ 0 then
          if mlen > s.next.length then .error .endOfInput
          else .ok (last, { s with next := s.next.drop mlen })
        else .ok (last, s)
  else do
    let (mlen, s) ← readMlen s n
    if s.got + mlen ≥ 18446744073709551616 then .error .oom
    else do
      let s ←
        (if s.hav ≠ 0 ∨ (s.got = 0 ∧ s.dnull = false) then
          if s.got + mlen > s.hav then .error .mismatch
          else pure s
        else pure { s with dnull := false })             -- allocate s->dest
      let (uncomp, s) ←
        (if last = 0 then bits s 1 else pure (0, s))     -- ISUNCOMPRESSED
      if uncomp ≠ 0 then do
        if s.left ≠ 0 ∧ s.bits ≠ 0 then .error .malformed
        else do
          let s := { s with bits := 0, left := 0 }
          if mlen > s.next.length then .error .endOfInput
          else do
            let s ←
              (if s.hav ≠ 0 then
                if (s.dest.drop s.got).take mlen ≠ s.next.take mlen then .error .mismatch
                else pure { s with got := s.got + mlen, next := s.next.drop mlen }
              else pure { s with dest := s.dest ++ s.next.take mlen,
                                 got := s.got + mlen, next := s.next.drop mlen })
            .ok (last, s)
      else do
        let s := { s with lit_last := 1, lit_type := 0 }
        let (ln, s) ← block_types s                      -- NBLTYPESL
        let s := { s with lit_num := ln }
        let s ←
          (if ln > 1 then do
            let (t, s) ← pfxRead s (ln + 2)
            let s := { s with lit_types := t }
            let (c, s) ← pfxRead s 26
            let s := { s with lit_count := c }
            let (bl, s) ← block_length s c
            pure { s with lit_left := bl }
          else pure { s with lit_left := 18446744073709551615 })
        let s := { s with iac_last := 1, iac_type := 0 }
        let (inum, s) ← block_types s                    -- NBLTYPESI
        let s := { s with iac_num := inum }
        let s ←
          (if inum > 1 then do
            let (t, s) ← pfxRead s (inum + 2)
            let s := { s with iac_types := t }
            let (c, s) ← pfxRead s 26
            let s := { s with iac_count := c }
            let (bl, s) ← block_length s c
            pure { s with iac_left := bl }
          else pure { s with iac_left := 18446744073709551615 })
        let s := { s with dist_last := 1, dist_type := 0 }
        let (dnum, s) ← block_types s                    -- NBLTYPESD
        let s := { s with dist_num := dnum }
        let s ←
          (if dnum > 1 then do
            let (t, s) ← pfxRead s (dnum + 2)
            let s := { s with dist_types := t }
            let (c, s) ← pfxRead s 26
            let s := { s with dist_count := c }
            let (bl, s) ← block_length s c
            pure { s with dist_left := bl }
          else pure { s with dist_left := 18446744073709551615 })
        let (pb, s) ← bits s 2                           -- NPOSTFIX
        let (nd, s) ← bits s 4                           -- NDIRECT >> NPOSTFIX
        let s := { s with npost := pb, direct := nd <<< pb }
        let dists := 16 + s.direct + (48 <<< s.npost)
        let (modes, s) ← readModes s.lit_num s           -- CMODE
        let s := { s with mode := modes }
        let (lc, s) ← block_types s                      -- NTREESL
        let s := { s with lit_codes := lc }
        let s ←
          (if lc > 1 then do
            let (m, s) ← context_map s (s.lit_num <<< 6) lc
            pure { s with lit_map := m }
          else pure s)
        let (dc, s) ← block_types s                      -- NTREESD
        let s := { s with dist_codes := dc }
        let s ←
          (if dc > 1 then do
            let (m, s) ← context_map s (s.dist_num <<< 2) dc
            pure { s with dist_map := m }
          else pure s)
        let (lcodes, s) ← readCodes lc 256 s             -- HTREEL
        let s := { s with lit_code := lcodes }
        let (icodes, s) ← readCodes s.iac_num 704 s      -- HTREEI
        let s := { s with iac_code := icodes }
        let (dcodes, s) ← readCodes dc dists s           -- HTREED
        let s := { s with dist_code := dcodes }
        let s ← dataLoop s.wsize (mlen + availBits s + 2) mlen s
        .ok (last, s)

/-- `new_state()` of yeast.c for non-compare mode: initial decoding state
over the input `comp`.  Fields that new_state() leaves uninitialized are
given harmless defaults. -/
def newState (comp : List Nat) : State :=
  { next := comp, bits := 0, left := 0, wbits := 0, wsize := 0,
    dest := [], got := 0, hav := 0, dnull := true,
    lit_num := 0, lit_last := 0, lit_type := 0, lit_left := 0,
    iac_num := 0, iac_last := 0, iac_type := 0, iac_left := 0,
    dist_num := 0, dist_last := 0, dist_type := 0, dist_left := 0,
    ring := [16, 15, 11, 4], ring_ptr := 3, npost := 0, direct := 0,
    lit_codes := 0, dist_codes := 0,
    lit_code := [], iac_code := [], dist_code := [],
    mode := [], lit_map := [], dist_map := [],
    lit_types := noCode, lit_count := noCode, iac_types := noCode,
    iac_count := noCode, dist_types := noCode, dist_count := noCode }

/-- The `while (metablock(s) == 0);` loop of `yeast()`.  Every meta-block
consumes at least one bit, so the available bit count bounds the number of
iterations and the fuel never runs out when started at `availBits + 1`. -/
def yeastLoop : Nat → State → Except Err State
  | 0, _ => .error .fuelOut
  | f + 1, s => do
    let (last, s) ← metablock s
    if last = 0 then yeastLoop f s else .ok s

/-- The body of `yeast()` (non-compare mode): read WBITS, compute the window
size, and decode meta-blocks until the last one. -/
def yeastRun (source : List Nat) : Except Err State := do
  let s := newState source
  let (b, s) ← bits s 1
  let (wb, s) ←
    (if b ≠ 0 then do
      let (b1, s) ← bits s 3
      if b1 ≠ 0 then pure (b1 + 17, s)
      else do
        let (b2, s) ← bits s 3
        if b2 ≠ 0 then pure (b2 + 8, s) else pure (17, s)
    else pure (16, s))
  if wb = 9 then .error .malformed
  else do
    let s := { s with wbits := wb, wsize := (1 <<< wb) - 16 }
    yeastLoop (8 * source.length + 1) s

/-- `yeast()` of yeast.c in non-compare mode (`cmp = 0`): returns
`(status, dest, got, consumed input bytes)`.  On success the status is 0;
on an error the status is the `throw` code (the C code additionally reports
the partial output and consumption at the moment of the error, which the
`Except`-based model does not track). -/
def yeast (source : List Nat) : Nat × List Nat × Nat × Nat :=
  match yeastRun source with
  | .ok s => (0, s.dest, s.got, source.length - s.next.length)
  | .error e => (errCode e, [], 0, 0)

/-! ### br.h constants and the trailer mask written by braid.c -/

def BR_CONTENT_CHECK : Nat := 7
def BR_CONTENT_LEN : Nat := 8
def BR_CONTENT_OFF : Nat := 0x10
def BR_CONTENT_TRAIL : Nat := 0x20
def BR_CHECK_XXH32_4 : Nat := 2

/-- The trailer content mask computed at the end of `main()` in braid.c:
start from the trailer marker with either the XXH32 check type (more than
one stream) or check type 7 (at most one), set the length and offset
presence bits as applicable, and finally flip bit 7 to even parity. -/
def trailMask (count2 hasLen hasOff : Bool) : Nat :=
  let trail := BR_CONTENT_TRAIL ||| (if count2 then BR_CHECK_XXH32_4 else 7)
  let trail := if hasLen then trail ||| BR_CONTENT_LEN else trail
  let trail := if hasOff then trail ||| BR_CONTENT_OFF else trail
  trail ^^^ parity trail

/-! ### Claim C10: a request for zero bits always succeeds -/

/-- Claim C10: for every decoder state — including one whose input buffer is
exhausted and whose bit accumulator is empty — `bits(s, 0)` returns 0,
consumes no input bytes, and leaves the accumulator contents and count
unchanged (the state is returned intact). -/
theorem C10_bits_zero (s : State) : bits s 0 = .ok (0, s) := by
  have hloop : bitsLoop 0 s.bits s.left s.next = .ok (s.bits, s.left, s.next) := by
    cases s.next <;> simp [bitsLoop]
  simp only [bits, hloop]
  simp

/-! ### Claim C1: decoding the one-byte stream 0x06 -/

/-- Claim C1: on the one-byte input `0x06` (WBITS bit 0 giving wbits 16,
ISLAST 1, ISLASTEMPTY 1), `yeast()` in non-compare mode returns status 0,
produces empty output (zero bytes written), and consumes exactly 1 input
byte. -/
theorem C1_empty_last_metablock : yeast [0x06] = (0, [], 0, 1) := by decide

/-! ### Claim C5: inverse move-to-front examples -/

/-- Counterexample to claim C5 as stated: the inverse move-to-front
transform of the context-map reader sends the raw map `[1, 0, 2, 1]` over a
3-tree alphabet to `[1, 1, 2, 1]`, not to `[1, 1, 2, 0]` (after
`1, 0, 2` the table is `[2, 1, 0]`, so the final index 1 yields 1). -/
theorem C5_mtf_counterexample : invMTF 3 [1, 0, 2, 1] ≠ [1, 1, 2, 0] := by decide

/-- Claim C5 amended: the inverse move-to-front transform applied by the
context-map reader over a trees=3 alphabet maps the raw map `[0, 1, 2, 0]`
to `[0, 1, 2, 2]`, and maps the raw map `[1, 0, 2, 1]` to `[1, 1, 2, 1]`. -/
theorem C5_mtf_examples :
    invMTF 3 [0, 1, 2, 0] = [0, 1, 2, 2] ∧ invMTF 3 [1, 0, 2, 1] = [1, 1, 2, 1] := by
  decide

/-! ### Claim C6: the MLEN nibble check -/

/-- Counterexample to claim C6 as stated: with `mnibblesSel = 1` (five
nibbles) and encoded field `mlen - 1 = 0xFFFF`, the top nibble of the
encoded field is zero — the value would fit in four nibbles — yet
`metablock()` accepts the stream, because the C code tests the top bits of
`mlen` itself rather than of `mlen - 1`. -/
theorem C6_claim_counterexample :
    readMlen (newState [255, 255, 0]) 1 =
      .ok (65536, { newState [255, 255, 0] with next := [], left := 4 }) ∧
    ((65536 - 1) >>> ((1 + 3) <<< 2)) &&& 0xf = 0 := by decide

/-- Claim C6 amended: for `mnibblesSel` in 0..2 the decoder reads
`mnibblesSel + 4` nibbles encoding `mlen - 1` (16 bits, then
`4 * mnibblesSel` more), and when `mnibblesSel > 0` it raises
MalformedStream exactly when the top nibble of `mlen` itself (the encoded
value plus one) is zero, i.e. when `mlen >>> (4 * (mnibblesSel + 3)) = 0`. -/
theorem C6_mlen_nibbles (s s1 : State) (lo : Nat)
    (h1 : bits s 16 = .ok (lo, s1)) :
    readMlen s 0 = .ok (1 + lo, s1) ∧
    ∀ nsel hi s2, 1 ≤ nsel → bits s1 (nsel <<< 2) = .ok (hi, s2) →
      readMlen s nsel =
        if (1 + lo + (hi <<< 16)) >>> ((nsel + 3) <<< 2) = 0 then .error .malformed
        else .ok (1 + lo + (hi <<< 16), s2) := by
  constructor
  · simp [readMlen, h1]
  · intro nsel hi s2 hn h2
    have hnz : nsel ≠ 0 := by omega
    simp [readMlen, h1, h2, hnz]

/-- Witness for C6_mlen_nibbles at the concrete input bytes
`FF FF 00` with `mnibblesSel = 1`. -/
theorem C6_mlen_nibbles_witness :
    bits (newState [255, 255, 0]) 16 = .ok (65535, { newState [255, 255, 0] with next := [0] }) ∧
    1 ≤ 1 ∧
    readMlen (newState [255, 255, 0]) 1 =
      if (1 + 65535 + (0 <<< 16)) >>> ((1 + 3) <<< 2) = 0 then .error .malformed
      else .ok (1 + 65535 + (0 <<< 16), { newState [255, 255, 0] with next := [], left := 4 }) :=
  ⟨by decide, le_refl 1,
   (C6_mlen_nibbles (newState [255, 255, 0]) { newState [255, 255, 0] with next := [0] }
       65535 (by decide)).2 1 0
     { newState [255, 255, 0] with next := [], left := 4 } (le_refl 1) (by decide)⟩

/-! ### Claim C8: mask parity -/

set_option maxRecDepth 8192 in
/-- Claim C8: for every 8-bit value `n`, `parity n` is 0 or 0x80 and
`n ^^^ parity n` has an even number of set bits; consequently the trailer
mask written by `main()` of braid.c (which applies `mask ^= parity(mask)`)
has even popcount for every combination of its optional fields. -/
theorem C8_parity_even :
    (∀ n, n < 256 → (parity n = 0 ∨ parity n = 128) ∧ popcount (n ^^^ parity n) % 2 = 0) ∧
    (∀ count2 hasLen hasOff : Bool, popcount (trailMask count2 hasLen hasOff) % 2 = 0) := by
  decide

/-- Witness for C8_parity_even at `n = 53`. -/
theorem C8_parity_even_witness :
    (53 : Nat) < 256 ∧ ((parity 53 = 0 ∨ parity 53 = 128) ∧ popcount (53 ^^^ parity 53) % 2 = 0) :=
  ⟨by decide, C8_parity_even.1 53 (by decide)⟩

/-! ### Claims C2 and C3: the distance computation -/

/-- The ring update only touches the ring fields. -/
theorem ringUpdate_io (t : State) (sym dist max : Nat) :
    (ringUpdate t sym dist max).next = t.next ∧
    (ringUpdate t sym dist max).bits = t.bits ∧
    (ringUpdate t sym dist max).left = t.left := by
  unfold ringUpdate
  split <;> exact ⟨rfl, rfl, rfl⟩

/-- Behaviour of the ring update: the ring advances and stores the distance
exactly when the symbol is non-zero and the distance is within `max`. -/
theorem ringUpdate_spec (t : State) (sym dist max : Nat) :
    ((sym ≠ 0 ∧ dist ≤ max) →
      (ringUpdate t sym dist max).ring_ptr = (t.ring_ptr + 1) % 4 ∧
      (ringUpdate t sym dist max).ring =
        t.ring.set ((t.ring_ptr + 1) % 4) (dist % 4294967296)) ∧
    (¬(sym ≠ 0 ∧ dist ≤ max) →
      (ringUpdate t sym dist max).ring = t.ring ∧
      (ringUpdate t sym dist max).ring_ptr = t.ring_ptr) := by
  unfold ringUpdate
  constructor
  · intro hc
    rw [if_pos hc]
    exact ⟨rfl, rfl⟩
  · intro hc
    rw [if_neg hc]
    exact ⟨rfl, rfl⟩

/-- `bits` leaves every field other than the input cursor unchanged. -/
theorem bits_io (s : State) (need v : Nat) (s' : State) (h : bits s need = .ok (v, s')) :
    s'.ring = s.ring ∧ s'.ring_ptr = s.ring_ptr ∧ s'.direct = s.direct ∧
    s'.npost = s.npost := by
  unfold bits at h
  cases hb : bitsLoop need s.bits s.left s.next with
  | error e => rw [hb] at h; cases h
  | ok t =>
    obtain ⟨r, l, nx⟩ := t
    rw [hb] at h
    simp only [Except.ok.injEq, Prod.mk.injEq] at h
    obtain ⟨-, h2⟩ := h
    subst h2
    exact ⟨rfl, rfl, rfl, rfl⟩

/-- Claim C2: whenever `distance(s, sym, max)` returns, the 4-entry distance
ring buffer is updated (ring pointer advanced modulo 4, computed distance
stored) if and only if `sym ≠ 0` and the computed distance is at most `max`;
otherwise ring and pointer are unchanged.  The bound `max` is at most the
window size, hence below `2^32`. -/
theorem C2_ring_update (s : State) (sym max dist : Nat) (s' : State)
    (hmax : max < 4294967296)
    (h : distance s sym max = .ok (dist, s')) :
    ((sym ≠ 0 ∧ dist ≤ max) →
       s'.ring_ptr = (s.ring_ptr + 1) % 4 ∧
       s'.ring = s.ring.set ((s.ring_ptr + 1) % 4) dist) ∧
    (¬(sym ≠ 0 ∧ dist ≤ max) → s'.ring = s.ring ∧ s'.ring_ptr = s.ring_ptr) := by
  unfold distance at h
  by_cases h16 : sym < 16
  · rw [if_pos h16] at h
    simp only [Except.ok.injEq, Prod.mk.injEq] at h
    obtain ⟨hd, hs⟩ := h
    subst hd
    subst hs
    refine ⟨fun hc => ?_, fun hc => (ringUpdate_spec s sym _ max).2 hc⟩
    obtain ⟨hp, hr⟩ := (ringUpdate_spec s sym _ max).1 hc
    rw [Nat.mod_eq_of_lt (lt_of_le_of_lt hc.2 hmax)] at hr
    exact ⟨hp, hr⟩
  · rw [if_neg h16] at h
    by_cases hdir : sym < 16 + s.direct
    · rw [if_pos hdir] at h
      simp only [Except.ok.injEq, Prod.mk.injEq] at h
      obtain ⟨hd, hs⟩ := h
      subst hd
      subst hs
      refine ⟨fun hc => ?_, fun hc => (ringUpdate_spec s sym _ max).2 hc⟩
      obtain ⟨hp, hr⟩ := (ringUpdate_spec s sym _ max).1 hc
      rw [Nat.mod_eq_of_lt (lt_of_le_of_lt hc.2 hmax)] at hr
      exact ⟨hp, hr⟩
    · rw [if_neg hdir] at h
      simp only [] at h
      cases hb : bits s (1 + ((sym - s.direct - 16) >>> (s.npost + 1))) with
      | error e => rw [hb] at h; cases h
      | ok t =>
        obtain ⟨e, s1⟩ := t
        rw [hb] at h
        simp only [Except.ok.injEq, Prod.mk.injEq] at h
        obtain ⟨hd, hs⟩ := h
        subst hd
        subst hs
        obtain ⟨hring, hptr, -, -⟩ := bits_io s _ e s1 hb
        refine ⟨fun hc => ?_, fun hc => ?_⟩
        · obtain ⟨hp, hr⟩ := (ringUpdate_spec s1 sym _ max).1 hc
          rw [Nat.mod_eq_of_lt (lt_of_le_of_lt hc.2 hmax)] at hr
          rw [hring, hptr] at hr
          rw [hptr] at hp
          exact ⟨hp, hr⟩
        · obtain ⟨hr, hp⟩ := (ringUpdate_spec s1 sym _ max).2 hc
          exact ⟨hr.trans hring, hp.trans hptr⟩

/-- Witness for C2_ring_update: symbol 3 with the initial ring reads ring
entry 0 (distance 16 ≤ 100), so the ring pointer advances from 3 to 0. -/
theorem C2_ring_update_witness :
    100 < 4294967296 ∧ ((3 : Nat) ≠ 0 ∧ 16 ≤ 100) ∧
    (({ newState [] with ring_ptr := 0 } : State).ring_ptr = ((newState []).ring_ptr + 1) % 4 ∧
     ({ newState [] with ring_ptr := 0 } : State).ring =
       (newState []).ring.set (((newState []).ring_ptr + 1) % 4) 16) :=
  ⟨by decide, by decide,
   (C2_ring_update (newState []) 3 100 16 { newState [] with ring_ptr := 0 }
     (by decide) (by decide)).1 (by decide)⟩

/-- Claim C3: for a state with `postfix` in 0..3 and
`direct = nDirect << postfix`: a symbol in `[16, 16 + direct)` yields
distance `sym - 15` without touching the input cursor, and a symbol
`≥ 16 + direct` reads `x = 1 + (n >> (postfix+1))` extra bits `e`
(`n = sym - direct - 16`) and yields
`((off + e) << postfix) + (n & ((1<<postfix)-1)) + direct + 1` with
`off = ((2 + ((n >> postfix) & 1)) << x) - 4`. -/
theorem C3_distance_ranges (s : State) (sym max nd : Nat)
    (_hpost : s.npost ≤ 3) (_hnd : nd ≤ 15) (_hdir : s.direct = nd <<< s.npost)
    (h16 : 16 ≤ sym) :
    (sym < 16 + s.direct →
      ∃ s', distance s sym max = .ok (sym - 15, s') ∧
        s'.next = s.next ∧ s'.bits = s.bits ∧ s'.left = s.left) ∧
    (16 + s.direct ≤ sym →
      ∀ e s1,
        bits s (1 + ((sym - s.direct - 16) >>> (s.npost + 1))) = .ok (e, s1) →
        ∃ s', distance s sym max = .ok (
          (((((2 + (((sym - s.direct - 16) >>> s.npost) &&& 1)) <<<
              (1 + ((sym - s.direct - 16) >>> (s.npost + 1)))) - 4) + e) <<< s.npost) +
            ((sym - s.direct - 16) &&& ((1 <<< s.npost) - 1)) + s.direct + 1, s')) := by
  constructor
  · intro hlt
    unfold distance
    rw [if_neg (by omega), if_pos hlt]
    exact ⟨_, rfl, (ringUpdate_io s sym (sym - 15) max).1,
      (ringUpdate_io s sym (sym - 15) max).2.1, (ringUpdate_io s sym (sym - 15) max).2.2⟩
  · intro hge e s1 hb
    unfold distance
    rw [if_neg (by omega), if_neg (by omega)]
    simp only []
    rw [hb]
    exact ⟨_, rfl⟩

/-- Witness for C3_distance_ranges: `postfix = 0`, `direct = 4`, symbol 22,
two extra bits with value 3, giving distance 12. -/
theorem C3_distance_ranges_witness :
    ({ newState [3] with direct := 4 } : State).npost ≤ 3 ∧ (4 : Nat) ≤ 15 ∧
    ({ newState [3] with direct := 4 } : State).direct =
      4 <<< ({ newState [3] with direct := 4 } : State).npost ∧
    (16 : Nat) ≤ 22 ∧ (16 : Nat) + ({ newState [3] with direct := 4 } : State).direct ≤ 22 ∧
    (∃ s', distance { newState [3] with direct := 4 } 22 100 = .ok (12, s')) :=
  ⟨by decide, by decide, by decide, by decide, by decide,
   (C3_distance_ranges { newState [3] with direct := 4 } 22 100 4
       (by decide) (by decide) (by decide) (by decide)).2 (by decide) 3
     { newState [3] with direct := 4, bits := 0, left := 6, next := [] } (by decide)⟩

/-! ### Claim C7: bidirectional varints of braid.c -/

/-- Oring a value below `2^k` with a `k`-shifted value is addition. -/
theorem lor_shl {a : Nat} (b : Nat) {k : Nat} (h : a < 2 ^ k) :
    a ||| (b <<< k) = a + b * 2 ^ k := by
  have h2 := Nat.mul_add_lt_is_or h b
  rw [Nat.shiftLeft_eq, Nat.lor_comm, Nat.mul_comm b (2 ^ k), ← h2]
  omega

/-- Masking with 0x7f keeps the low 7 bits. -/
theorem and127_eq (x : Nat) : x &&& 127 = x % 128 := by
  simpa using Nat.and_pow_two_sub_one_eq_mod x 7

/-- Oring the high bit onto a 7-bit value is addition of 128. -/
theorem or128_eq {m : Nat} (h : m < 128) : 0x80 ||| m = 128 + m := by
  have h2 := Nat.mul_add_lt_is_or (i := 7) h 1
  norm_num at h2
  exact h2.symm

/-- A byte of the form `128 + m` with `m < 128` has the high bit set. -/
theorem and128_high {m : Nat} (h : m < 128) : (128 + m) &&& 128 = 128 := by
  have ha := Nat.and_two_pow (128 + m) 7
  have ht : (128 + m).testBit 7 = true := by
    rw [Nat.testBit_to_div_mod]
    have hd : (128 + m) / 2 ^ 7 = 1 := by
      show (128 + m) / 128 = 1
      omega
    rw [hd]
    decide
  rw [ht] at ha
  simpa using ha

/-- A value below 128 has the high bit clear. -/
theorem and128_low {m : Nat} (h : m < 128) : m &&& 128 = 0 := by
  have ha := Nat.and_two_pow m 7
  have ht : m.testBit 7 = false :=
    Nat.testBit_lt_two_pow (lt_of_lt_of_le h (by norm_num))
  rw [ht] at ha
  simpa using ha

/-- Structure of the bytes emitted after the first `bvar` byte: bytes with
the high bit clear followed by one final byte `0x80 ||| t`. -/
theorem bvarRestAux_decomp : ∀ f n, n ≤ f →
    ∃ mid t, t ≤ 127 ∧ bvarRestAux f n = mid ++ [0x80 ||| t] ∧
      mid.all (fun b => b &&& 0x80 == 0) = true := by
  intro f
  induction f with
  | zero =>
    intro n hn
    have hn0 : n = 0 := by omega
    subst hn0
    exact ⟨[], 0, by omega, rfl, rfl⟩
  | succ f ih =>
    intro n hn
    by_cases h : n > 127
    · obtain ⟨mid, t, ht, heq, hall⟩ := ih (n / 128) (by omega)
      refine ⟨(n &&& 0x7f) :: mid, t, ht, ?_, ?_⟩
      · simp only [bvarRestAux]
        rw [if_pos h, heq, List.cons_append]
      · have hlow : (n &&& 0x7f) &&& 0x80 = 0 := by
          rw [and127_eq]
          exact and128_low (Nat.mod_lt _ (by omega))
        simp [List.all_cons, hall, hlow]
    · refine ⟨[], n, by omega, ?_, rfl⟩
      simp only [bvarRestAux]
      rw [if_neg h, List.nil_append]

set_option maxHeartbeats 1000000 in
/-- Reading the `bvar` tail forwards accumulates exactly the encoded value,
shifted into place above the bits gathered so far. -/
theorem getbvarAux_bvarRestAux : ∀ f n val shift, n ≤ f → val < 2 ^ (shift + 7) →
    getbvarAux val shift (bvarRestAux f n) = .ok (val + n * 2 ^ (shift + 7)) := by
  intro f
  induction f with
  | zero =>
    intro n val shift hn _hv
    have hn0 : n = 0 := by omega
    subst hn0
    show getbvarAux val shift (bvarRestAux 0 0) = _
    rw [bvarRestAux, getbvarAux]
    rw [if_neg (by decide : ¬((0x80 ||| 0 : Nat) &&& 0x80 = 0))]
    rw [(by decide : (0x80 ||| 0 : Nat) &&& 0x7f = 0)]
    simp
  | succ f ih =>
    intro n val shift hn hv
    by_cases h : n > 127
    · have hstep : bvarRestAux (f + 1) n = (n &&& 0x7f) :: bvarRestAux f (n / 128) := by
        simp only [bvarRestAux]
        rw [if_pos h]
      rw [hstep]
      have hmlt : n % 128 < 128 := Nat.mod_lt _ (by omega)
      have hmm : (n &&& 0x7f) &&& 0x7f = n % 128 := by
        rw [and127_eq, and127_eq]
        omega
      have hc : (n &&& 0x7f) &&& 0x80 = 0 := by
        rw [and127_eq]
        exact and128_low hmlt
      have hval' : val ||| ((n % 128) <<< (shift + 7)) = val + n % 128 * 2 ^ (shift + 7) :=
        lor_shl _ hv
      rw [getbvarAux]
      rw [if_pos hc, hmm, hval']
      have hbound : val + n % 128 * 2 ^ (shift + 7) < 2 ^ (shift + 7 + 7) := by
        have hp : (2 : Nat) ^ (shift + 7 + 7) = 2 ^ (shift + 7) * 128 := by
          rw [pow_add]
          norm_num
        have h1 : n % 128 * 2 ^ (shift + 7) ≤ 127 * 2 ^ (shift + 7) :=
          Nat.mul_le_mul_right _ (by omega)
        have h2 : (0 : Nat) < 2 ^ (shift + 7) := Nat.pos_pow_of_pos _ (by omega)
        nlinarith
      rw [ih (n / 128) _ (shift + 7) (by omega) hbound]
      congr 1
      have hp : (2 : Nat) ^ (shift + 7 + 7) = 2 ^ (shift + 7) * 128 := by
        rw [pow_add]
        norm_num
      rw [hp]
      have hdm : n % 128 + 128 * (n / 128) = n := by omega
      calc val + n % 128 * 2 ^ (shift + 7) + n / 128 * (2 ^ (shift + 7) * 128)
          = val + (n % 128 + 128 * (n / 128)) * 2 ^ (shift + 7) := by ring
        _ = val + n * 2 ^ (shift + 7) := by rw [hdm]
    · have hstep : bvarRestAux (f + 1) n = [0x80 ||| n] := by
        simp only [bvarRestAux]
        rw [if_neg h]
      rw [hstep]
      have hn128 : n < 128 := by omega
      have hor : (0x80 : Nat) ||| n = 128 + n := or128_eq hn128
      have hc : ¬(((0x80 : Nat) ||| n) &&& 0x80 = 0) := by
        rw [hor, and128_high hn128]
        omega
      have hm : ((0x80 : Nat) ||| n) &&& 0x7f = n := by
        rw [hor, and127_eq]
        omega
      rw [getbvarAux]
      rw [if_neg hc, hm, lor_shl _ hv]

set_option maxHeartbeats 1000000 in
/-- Reading a `bvar` tail backwards (from the end of the stored bytes)
reconstructs the encoded value and then continues with the earlier bytes. -/
theorem getrbvarFrom_bvarRestAux : ∀ f n, n ≤ f → ∀ rest,
    getrbvarFrom ((bvarRestAux f n).reverse ++ rest) = getrbvarAux n rest := by
  intro f
  induction f with
  | zero =>
    intro n hn rest
    have hn0 : n = 0 := by omega
    subst hn0
    show getrbvarFrom ((bvarRestAux 0 0).reverse ++ rest) = _
    rw [bvarRestAux, List.reverse_singleton, List.singleton_append, getrbvarFrom]
    rw [if_neg (by decide : ¬((0x80 ||| 0 : Nat) &&& 0x80 = 0))]
    rw [(by decide : (0x80 ||| 0 : Nat) &&& 0x7f = 0)]
  | succ f ih =>
    intro n hn rest
    by_cases h : n > 127
    · have hstep : bvarRestAux (f + 1) n = (n &&& 0x7f) :: bvarRestAux f (n / 128) := by
        simp only [bvarRestAux]
        rw [if_pos h]
      rw [hstep, List.reverse_cons, List.append_assoc, List.singleton_append]
      rw [ih (n / 128) (by omega) ((n &&& 0x7f) :: rest)]
      have hmlt : n % 128 < 128 := Nat.mod_lt _ (by omega)
      have hmm : (n &&& 0x7f) &&& 0x7f = n % 128 := by
        rw [and127_eq, and127_eq]
        omega
      have hc : (n &&& 0x7f) &&& 0x80 = 0 := by
        rw [and127_eq]
        exact and128_low hmlt
      have h128 : n % 128 < 2 ^ 7 := by
        have : (2 : Nat) ^ 7 = 128 := by norm_num
        omega
      have hval : ((n / 128) <<< 7) ||| ((n &&& 0x7f) &&& 0x7f) = n := by
        rw [hmm, Nat.lor_comm, lor_shl _ h128]
        have : (2 : Nat) ^ 7 = 128 := by norm_num
        omega
      rw [getrbvarAux]
      rw [if_pos hc, hval]
    · have hstep : bvarRestAux (f + 1) n = [0x80 ||| n] := by
        simp only [bvarRestAux]
        rw [if_neg h]
      rw [hstep, List.reverse_singleton, List.singleton_append]
      have hn128 : n < 128 := by omega
      have hor : (0x80 : Nat) ||| n = 128 + n := or128_eq hn128
      have hc : ¬(((0x80 : Nat) ||| n) &&& 0x80 = 0) := by
        rw [hor, and128_high hn128]
        omega
      have hm : ((0x80 : Nat) ||| n) &&& 0x7f = n := by
        rw [hor, and127_eq]
        omega
      rw [getrbvarFrom]
      rw [if_neg hc, hm]

set_option maxHeartbeats 1000000 in
/-- Claim C7: for every value `v`, `bvar v` is a byte sequence whose first
and last bytes have the high bit set and whose intermediate bytes have the
high bit clear, and both the forward reader `getbvar` and the backward
reader `getrbvar` recover exactly `v` from it. -/
theorem C7_bvar_roundtrip (v : Nat) :
    ∃ mid t, t ≤ 127 ∧
      bvar v = (0x80 ||| (v &&& 0x7f)) :: (mid ++ [0x80 ||| t]) ∧
      mid.all (fun b => b &&& 0x80 == 0) = true ∧
      (0x80 ||| (v &&& 0x7f)) &&& 0x80 ≠ 0 ∧
      (0x80 ||| t) &&& 0x80 ≠ 0 ∧
      getbvar (bvar v) = .ok v ∧
      getrbvar (bvar v) = .ok v := by
  obtain ⟨mid, t, ht, heq, hall⟩ := bvarRestAux_decomp (v >>> 7) (v >>> 7) le_rfl
  have hv7 : v >>> 7 = v / 128 := by simp [Nat.shiftRight_eq_div_pow]
  have hlow : v &&& 0x7f = v % 128 := and127_eq v
  have hmod : v % 128 < 128 := Nat.mod_lt _ (by omega)
  have hfirst : ¬((0x80 ||| (v &&& 0x7f)) &&& 0x80 = 0) := by
    rw [hlow, or128_eq hmod, and128_high hmod]
    omega
  have hfm : (0x80 ||| (v &&& 0x7f)) &&& 0x7f = v % 128 := by
    rw [hlow, or128_eq hmod, and127_eq]
    omega
  have h128 : v % 128 < 2 ^ 7 := by
    have : (2 : Nat) ^ 7 = 128 := by norm_num
    omega
  refine ⟨mid, t, ht, ?_, hall, ?_, ?_, ?_, ?_⟩
  · show (0x80 ||| (v &&& 0x7f)) :: bvarRestAux (v >>> 7) (v >>> 7) = _
    rw [heq]
  · rw [hlow, or128_eq hmod, and128_high hmod]
    omega
  · have ht128 : t < 128 := by omega
    rw [or128_eq ht128, and128_high ht128]
    omega
  · show (if (0x80 ||| (v &&& 0x7f)) &&& 0x80 = 0 then (Except.error Err.malformed : Except Err Nat)
        else getbvarAux ((0x80 ||| (v &&& 0x7f)) &&& 0x7f) 0 (bvarRestAux (v >>> 7) (v >>> 7))) =
      .ok v
    rw [if_neg hfirst, hfm]
    rw [getbvarAux_bvarRestAux (v >>> 7) (v >>> 7) (v % 128) 0 le_rfl
      (by simpa using h128)]
    congr 1
    have he : (2 : Nat) ^ (0 + 7) = 128 := by norm_num
    rw [hv7, he]
    omega
  · show getrbvarFrom ((0x80 ||| (v &&& 0x7f)) :: bvarRestAux (v >>> 7) (v >>> 7)).reverse = .ok v
    rw [List.reverse_cons]
    rw [getrbvarFrom_bvarRestAux (v >>> 7) (v >>> 7) le_rfl [0x80 ||| (v &&& 0x7f)]]
    rw [getrbvarAux]
    rw [if_neg hfirst, hfm]
    congr 1
    rw [Nat.lor_comm, lor_shl _ h128]
    have he : (2 : Nat) ^ 7 = 128 := by norm_num
    rw [hv7, he]
    omega

/-! ### Claim C9: decode terminates within 15 bits on complete codes -/

/-- The refill loop succeeds whenever enough bits are available, preserves
the total bit count and buffers at least `need` bits. -/
theorem bitsLoop_ok : ∀ (next : List Nat) (reg left need : Nat),
    need ≤ left + 8 * next.length →
    ∃ r l nx, bitsLoop need reg left next = .ok (r, l, nx) ∧ need ≤ l ∧
      l + 8 * nx.length = left + 8 * next.length := by
  intro next
  induction next with
  | nil =>
    intro reg left need h
    simp only [List.length_nil, Nat.mul_zero, Nat.add_zero] at h
    refine ⟨reg, left, [], ?_, h, by simp⟩
    rw [bitsLoop, if_neg (by omega)]
  | cons b rest ih =>
    intro reg left need h
    by_cases hl : left < need
    · obtain ⟨r, l, nx, heq, hle, hsum⟩ :=
        ih (reg ||| (b <<< left)) (left + 8) need (by simp at h ⊢; omega)
    
      refine ⟨r, l, nx, ?_, hle, ?_⟩
      · rw [bitsLoop, if_pos hl]
        exact heq
      · simp only [List.length_cons] at *
        omega
    · exact ⟨reg, left, b :: rest, by rw [bitsLoop, if_neg hl], by omega, rfl⟩

/-- `bits` succeeds whenever enough bits are available, consumes exactly
`need` of them, and returns a value below `2^need`. -/
theorem bits_ok (s : State) (need : Nat) (h : need ≤ availBits s) :
    ∃ v s', bits s need = .ok (v, s') ∧ availBits s' + need = availBits s ∧ v < 2 ^ need := by
  obtain ⟨r, l, nx, heq, hle, hsum⟩ := bitsLoop_ok s.next s.bits s.left need h
  refine ⟨r &&& ((1 <<< need) - 1),
    { s with bits := r >>> need, left := l - need, next := nx }, ?_, ?_, ?_⟩
  · unfold bits
    rw [heq]
  · show l - need + 8 * nx.length + need = availBits s
    unfold availBits at *
    omega
  · have h1 : (1 : Nat) <<< need = 2 ^ need := by rw [Nat.shiftLeft_eq, one_mul]
    rw [h1, Nat.and_pow_two_sub_one_eq_mod]
    exact Nat.mod_lt _ (Nat.two_pow_pos need)

/-- Main loop invariant for `decode()`: on a code whose remaining counts
exactly fill the code space, the loop exits at some length at most 15 with
an in-range symbol index, consuming at most one bit per level. -/
theorem decodeLoop_complete (p : PfxCode) :
    ∀ fuel len first index code s,
      len + fuel = 15 →
      first * 2 ^ fuel +
        (∑ j in Finset.range (fuel + 1), p.count.getD (len + j) 0 * 2 ^ (fuel - j)) = 2 ^ 15 →
      first ≤ code →
      code < 2 ^ len →
      index = ∑ i in Finset.range len, p.count.getD i 0 →
      fuel ≤ availBits s →
      ∃ idx s', decodeLoop p fuel len first index code s = .ok (p.symbol.getD idx 0, s') ∧
        idx < ∑ i in Finset.range 16, p.count.getD i 0 ∧
        availBits s ≤ availBits s' + fuel := by
  intro fuel
  induction fuel with
  | zero =>
    intro len first index code s hlen hinv hfc hcode hidx havail
    have hl : len = 15 := by omega
    subst hl
    rw [Finset.sum_range_one] at hinv
    simp only [pow_zero, mul_one, Nat.add_zero, Nat.sub_self] at hinv
    have hexit : code < first + p.count.getD 15 0 := by omega
    refine ⟨index + code - first, s, ?_, ?_, by omega⟩
    · rw [decodeLoop, if_pos hexit]
    · subst hidx
      have hsum16 : (∑ i in Finset.range 16, p.count.getD i 0) =
          (∑ i in Finset.range 15, p.count.getD i 0) + p.count.getD 15 0 :=
        Finset.sum_range_succ _ 15
      omega
  | succ f ih =>
    intro len first index code s hlen hinv hfc hcode hidx havail
    by_cases hexit : code < first + p.count.getD len 0
    · refine ⟨index + code - first, s, ?_, ?_, by omega⟩
      · rw [decodeLoop, if_pos hexit]
      · subst hidx
        have hsum : (∑ i in Finset.range (len + 1), p.count.getD i 0) =
            (∑ i in Finset.range len, p.count.getD i 0) + p.count.getD len 0 :=
          Finset.sum_range_succ _ len
        have hmono : (∑ i in Finset.range (len + 1), p.count.getD i 0) ≤
            ∑ i in Finset.range 16, p.count.getD i 0 :=
          Finset.sum_le_sum_of_subset (Finset.range_subset.mpr (by omega))
        omega
    · have h1le : 1 ≤ availBits s := by omega
      obtain ⟨b, s1, hb, havail1, hblt⟩ := bits_ok s 1 h1le
      have hb2 : b < 2 := by
        have : (2 : Nat) ^ 1 = 2 := by norm_num
        omega
      have hstep : decodeLoop p (f + 1) len first index code s =
          decodeLoop p f (len + 1) ((first + p.count.getD len 0) <<< 1)
            (index + p.count.getD len 0) ((code <<< 1) ||| b) s1 := by
        rw [decodeLoop, if_neg hexit]
        rw [hb]
      have hcode' : (code <<< 1) ||| b = 2 * code + b := by
        have hl2 := lor_shl (k := 1) code hblt
        rw [Nat.lor_comm, hl2, pow_one]
        omega
      have hinv' : ((first + p.count.getD len 0) <<< 1) * 2 ^ f +
          (∑ j in Finset.range (f + 1), p.count.getD (len + 1 + j) 0 * 2 ^ (f - j)) = 2 ^ 15 := by
        have hpeel := Finset.sum_range_succ'
          (fun j => p.count.getD (len + j) 0 * 2 ^ (f + 1 - j)) (f + 1)
        rw [hpeel] at hinv
        have hcongr : (∑ j in Finset.range (f + 1),
            p.count.getD (len + (j + 1)) 0 * 2 ^ (f + 1 - (j + 1))) =
            ∑ j in Finset.range (f + 1), p.count.getD (len + 1 + j) 0 * 2 ^ (f - j) := by
          apply Finset.sum_congr rfl
          intro j _
          have e1 : len + (j + 1) = len + 1 + j := by omega
          have e2 : f + 1 - (j + 1) = f - j := by omega
          rw [e1, e2]
        rw [hcongr] at hinv
        rw [Nat.shiftLeft_eq, pow_one]
        simp only [Nat.add_zero, Nat.sub_zero] at hinv
        have hp : (2 : Nat) ^ (f + 1) = 2 * 2 ^ f := by rw [pow_succ]; ring
        rw [hp] at hinv
        have hexp : (first + p.count.getD len 0) * 2 * 2 ^ f =
            first * (2 * 2 ^ f) + p.count.getD len 0 * (2 * 2 ^ f) := by ring
        linarith [hinv, hexp]
      have hfc' : (first + p.count.getD len 0) <<< 1 ≤ (code <<< 1) ||| b := by
        rw [hcode', Nat.shiftLeft_eq, pow_one]
        omega
      have hcode2 : (code <<< 1) ||| b < 2 ^ (len + 1) := by
        rw [hcode', pow_succ]
        linarith [hcode, hb2]
      have hidx' : index + p.count.getD len 0 = ∑ i in Finset.range (len + 1), p.count.getD i 0 := by
        rw [Finset.sum_range_succ]
        omega
      have havail' : f ≤ availBits s1 := by omega
      obtain ⟨idx, s', heq, hidx2, hav2⟩ :=
        ih (len + 1) ((first + p.count.getD len 0) <<< 1) (index + p.count.getD len 0)
          ((code <<< 1) ||| b) s1 (by omega) hinv' hfc' hcode2 hidx' havail'
      refine ⟨idx, s', ?_, hidx2, by omega⟩
      rw [hstep]
      exact heq

/-- Claim C9: for every prefix table whose counts either fill the code space
(`sum count[i] * 2^(15-i) = 2^15`) or form the degenerate single-symbol code
(`count[0] = 1`), and enough input, `decode` terminates with a code length
of at most 15: it consumes at most 15 bits and returns an entry of the
symbol table at an in-bounds index (the total symbol count being at most the
table length). -/
theorem C9_decode_complete (p : PfxCode) (s : State)
    (hc : (∑ i in Finset.range 16, p.count.getD i 0 * 2 ^ (15 - i)) = 2 ^ 15 ∨
          p.count.getD 0 0 = 1)
    (ha : 15 ≤ availBits s)
    (hs : (∑ i in Finset.range 16, p.count.getD i 0) ≤ p.symbol.length) :
    ∃ idx s', decode s p = .ok (p.symbol.getD idx 0, s') ∧
      idx < p.symbol.length ∧ availBits s ≤ availBits s' + 15 := by
  rcases hc with hc | hc
  · have hinv : 0 * 2 ^ 15 +
        (∑ j in Finset.range 16, p.count.getD (0 + j) 0 * 2 ^ (15 - j)) = 2 ^ 15 := by
      simpa using hc
    obtain ⟨idx, s', heq, hidx, hav⟩ :=
      decodeLoop_complete p 15 0 0 0 0 s (by omega) hinv (le_refl 0) (by norm_num) (by simp) ha
    exact ⟨idx, s', heq, lt_of_lt_of_le hidx hs, hav⟩
  · have hexit : 0 < 0 + p.count.getD 0 0 := by omega
    have heq : decode s p = .ok (p.symbol.getD 0 0, s) := by
      unfold decode
      rw [decodeLoop, if_pos hexit]
    refine ⟨0, s, heq, ?_, by omega⟩
    have h1 : p.count.getD 0 0 ≤ ∑ i in Finset.range 16, p.count.getD i 0 :=
      Finset.single_le_sum (f := fun i => p.count.getD i 0)
        (fun i _ => Nat.zero_le _) (Finset.mem_range.mpr (by omega))
    omega

/-- Witness for C9_decode_complete: the complete code with two 1-bit symbols
5 and 9 on a 2-byte input. -/
theorem C9_decode_complete_witness :
    ((∑ i in Finset.range 16,
        ({ count := [0, 2, 0, 0, 0, 0, 0, 0, 0, 0, 0, 0, 0, 0, 0, 0],
           symbol := [5, 9] } : PfxCode).count.getD i 0 * 2 ^ (15 - i)) = 2 ^ 15 ∨
      ({ count := [0, 2, 0, 0, 0, 0, 0, 0, 0, 0, 0, 0, 0, 0, 0, 0],
         symbol := [5, 9] } : PfxCode).count.getD 0 0 = 1) ∧
    15 ≤ availBits (newState [0, 0]) ∧
    (∑ i in Finset.range 16,
        ({ count := [0, 2, 0, 0, 0, 0, 0, 0, 0, 0, 0, 0, 0, 0, 0, 0],
           symbol := [5, 9] } : PfxCode).count.getD i 0) ≤
      ({ count := [0, 2, 0, 0, 0, 0, 0, 0, 0, 0, 0, 0, 0, 0, 0, 0],
         symbol := [5, 9] } : PfxCode).symbol.length ∧
    (∃ idx s', decode (newState [0, 0])
        { count := [0, 2, 0, 0, 0, 0, 0, 0, 0, 0, 0, 0, 0, 0, 0, 0], symbol := [5, 9] } =
          .ok (({ count := [0, 2, 0, 0, 0, 0, 0, 0, 0, 0, 0, 0, 0, 0, 0, 0],
                  symbol := [5, 9] } : PfxCode).symbol.getD idx 0, s') ∧
      idx < ({ count := [0, 2, 0, 0, 0, 0, 0, 0, 0, 0, 0, 0, 0, 0, 0, 0],
               symbol := [5, 9] } : PfxCode).symbol.length ∧
      availBits (newState [0, 0]) ≤ availBits s' + 15) :=
  ⟨Or.inl (by decide), by decide, by decide,
   C9_decode_complete ({ count := [0, 2, 0, 0, 0, 0, 0, 0, 0, 0, 0, 0, 0, 0, 0, 0], symbol := [5, 9] } : PfxCode)
     (newState [0, 0]) (Or.inl (by decide)) (by decide) (by decide)⟩

/-! ### Claim C4: the code-length code of the complex descriptor -/

/-- Whatever `decodeLoop` returns is an entry of the symbol table (or the
out-of-range default 0), hence bounded by any bound on those entries. -/
theorem decodeLoop_sym_le (p : PfxCode) (bound : Nat)
    (hb : ∀ k, p.symbol.getD k 0 ≤ bound) :
    ∀ fuel len first index code s v s',
      decodeLoop p fuel len first index code s = .ok (v, s') → v ≤ bound := by
  intro fuel
  induction fuel with
  | zero =>
    intro len first index code s v s' h
    rw [decodeLoop] at h
    split at h
    · simp only [Except.ok.injEq, Prod.mk.injEq] at h
      exact h.1 ▸ hb _
    · cases h
  | succ f ih =>
    intro len first index code s v s' h
    rw [decodeLoop] at h
    split at h
    · simp only [Except.ok.injEq, Prod.mk.injEq] at h
      exact h.1 ▸ hb _
    · cases hbits : bits s 1 with
      | error e => rw [hbits] at h; cases h
      | ok t =>
        obtain ⟨b, s1⟩ := t
        rw [hbits] at h
        exact ih _ _ _ _ _ _ _ h

/-- Every symbol decoded with the fixed code-length-length code is at
most 5. -/
theorem decode_clclCode_le (s : State) (v : Nat) (s' : State)
    (h : decode s clclCode = .ok (v, s')) : v ≤ 5 := by
  have hb : ∀ k, clclCode.symbol.getD k 0 ≤ 5 := by
    intro k
    show ([0, 3, 4, 2, 1, 5] : List Nat).getD k 0 ≤ 5
    by_cases hk : k < 6
    · interval_cases k <;> decide
    · rw [List.getD_eq_default _ _ (by simp; omega)]
      omega
  exact decodeLoop_sym_le clclCode 5 hb 15 0 0 0 0 s v s' h

/-- The reading loop of yeast.c computes, through its `left` counter, the
same data as the specification loop based on the running sum of
`2^(5-len)`: `left = 32 - sum` throughout. -/
theorem clclLoop_eq_spec : ∀ (f nsym : Nat) (lens : List Nat) (nz lastSym : Nat) (s : State)
    (sum : Nat), sum < 32 →
    clclLoop f nsym lens (32 - (sum : Int)) nz lastSym s =
      (clclSpecLoop f nsym lens sum nz lastSym s).map
        (fun r => (r.1, 32 - (r.2.1 : Int), r.2.2.1, r.2.2.2.1, r.2.2.2.2.1, r.2.2.2.2.2)) := by
  intro f
  induction f with
  | zero =>
    intro nsym lens nz lastSym s sum hsum
    rw [clclLoop, clclSpecLoop]
    rfl
  | succ f ih =>
    intro nsym lens nz lastSym s sum hsum
    rw [clclLoop, clclSpecLoop]
    cases hdec : decode s clclCode with
    | error e => rfl
    | ok t =>
      obtain ⟨len, s'⟩ := t
      have hlen5 : len ≤ 5 := decode_clclCode_le s len s' hdec
      dsimp only
      by_cases hz : len ≠ 0
      · rw [if_pos hz, if_pos hz]
        have hshift : ((32 >>> len : Nat) : Int) = ((2 ^ (5 - len) : Nat) : Int) := by
          congr 1
          rw [Nat.shiftRight_eq_div_pow]
          have h32 : (32 : Nat) = 2 ^ 5 := by norm_num
          rw [h32, Nat.pow_div hlen5 (by omega)]
        have hleft : (32 : Int) - (sum : Int) - ((32 >>> len : Nat) : Int) =
            (32 : Int) - ((sum + 2 ^ (5 - len) : Nat) : Int) := by
          rw [hshift]
          push_cast
          ring
        by_cases hstop : 32 ≤ sum + 2 ^ (5 - len)
        · rw [if_pos (by rw [hleft]; omega), if_pos hstop]
          rw [hleft]
          rfl
        · rw [if_neg (by rw [hleft]; omega), if_neg hstop]
          rw [hleft]
          exact ih (nsym + 1) _ (nz + 1) _ s' (sum + 2 ^ (5 - len)) (by omega)
      · rw [if_neg hz, if_neg hz]
        exact ih (nsym + 1) _ nz lastSym s' sum hsum

/-- Claim C4: the complex-descriptor reader decodes the 18 code-length-code
lengths with the fixed code `clclCode` (counts [0,0,3,1,2], symbols
[0,3,4,2,1,5]); measured by the specification loop `clclSpecLoop` (running
sum of `2^(5-len)` with early stop at 32), `clclRead` propagates read
errors, raises MalformedStream on an oversubscribed code (sum over 32),
raises MalformedStream on an incomplete code (sum under 32) unless exactly
one non-zero length was seen — in which case it returns a one-symbol
zero-bit code for that symbol, ignoring the stated length — and otherwise
builds the code from the recorded lengths. -/
theorem C4_code_length_code (s : State) (hskip : Nat) :
    clclCode.count = [0, 0, 3, 1, 2, 0, 0, 0, 0, 0, 0, 0, 0, 0, 0, 0] ∧
    clclCode.symbol = [0, 3, 4, 2, 1, 5] ∧
    ((∃ e, clclSpecLoop (18 - hskip) hskip (clFill 0 hskip (List.replicate 18 0)) 0 0 0 s =
        .error e ∧ clclRead s hskip = .error e) ∨
     (∃ lens sum nz lastSym nsym s',
        clclSpecLoop (18 - hskip) hskip (clFill 0 hskip (List.replicate 18 0)) 0 0 0 s =
          .ok (lens, sum, nz, lastSym, nsym, s') ∧
        ((32 < sum ∧ clclRead s hskip = .error .malformed) ∨
         (sum < 32 ∧ nz ≠ 1 ∧ clclRead s hskip = .error .malformed) ∨
         (sum < 32 ∧ nz = 1 ∧ ∃ code, clclRead s hskip = .ok (code, s') ∧
            code.count.getD 0 0 = 1 ∧ code.symbol.getD 0 0 = lastSym) ∨
         (sum = 32 ∧
            clclRead s hskip = .ok (construct (clFill nsym (18 - nsym) lens), s'))))) := by
  refine ⟨rfl, rfl, ?_⟩
  have hloop : clclLoop (18 - hskip) hskip (clFill 0 hskip (List.replicate 18 0)) 32 0 0 s =
      (clclSpecLoop (18 - hskip) hskip (clFill 0 hskip (List.replicate 18 0)) 0 0 0 s).map
        (fun r => (r.1, 32 - (r.2.1 : Int), r.2.2.1, r.2.2.2.1, r.2.2.2.2.1, r.2.2.2.2.2)) := by
    have h := clclLoop_eq_spec (18 - hskip) hskip (clFill 0 hskip (List.replicate 18 0))
      0 0 s 0 (by omega)
    simpa using h
  cases hspec : clclSpecLoop (18 - hskip) hskip (clFill 0 hskip (List.replicate 18 0)) 0 0 0 s with
  | error e =>
    left
    refine ⟨e, rfl, ?_⟩
    unfold clclRead
    rw [hloop, hspec]
    rfl
  | ok r =>
    obtain ⟨lens, sum, nz, lastSym, nsym, s'⟩ := r
    right
    refine ⟨lens, sum, nz, lastSym, nsym, s', rfl, ?_⟩
    have hcall : clclLoop (18 - hskip) hskip (clFill 0 hskip (List.replicate 18 0)) 32 0 0 s =
        .ok (lens, 32 - (sum : Int), nz, lastSym, nsym, s') := by
      rw [hloop, hspec]
      rfl
    by_cases h1 : 32 < sum
    · left
      refine ⟨h1, ?_⟩
      unfold clclRead
      rw [hcall]
      dsimp only
      rw [if_pos (by omega : (32 : Int) - (sum : Nat) < 0)]
    · by_cases h2 : sum < 32
      · by_cases h3 : nz = 1
        · right; right; left
          refine ⟨h2, h3, ?_⟩
          refine ⟨{ count := clclCode.count.set 0 1,
                    symbol := clclCode.symbol.set 0 lastSym }, ?_, ?_, ?_⟩
          · unfold clclRead
            rw [hcall]
            dsimp only
            rw [if_neg (by omega : ¬((32 : Int) - (sum : Nat) < 0))]
            rw [if_neg (fun hcon => hcon.2 h3)]
            rw [if_pos (by omega : (32 : Int) - (sum : Nat) ≠ 0)]
          · rfl
          · rfl
        · right; left
          refine ⟨h2, h3, ?_⟩
          unfold clclRead
          rw [hcall]
          dsimp only
          rw [if_neg (by omega : ¬((32 : Int) - (sum : Nat) < 0))]
          rw [if_pos ⟨by omega, h3⟩]
      · have h4 : sum = 32 := by omega
        right; right; right
        refine ⟨h4, ?_⟩
        unfold clclRead
        rw [hcall]
        dsimp only
        rw [if_neg (by omega : ¬((32 : Int) - (sum : Nat) < 0))]
        rw [if_neg (fun hcon => hcon.1 (by rw [h4]; norm_num))]
        rw [if_neg (fun hne => hne (by rw [h4]; norm_num))]
